import Mathlib

/-!
Shallow embedding of the mockllm request-matching engine.

The source normalizes every compared payload through `encoding/json`:
`compareMessages` marshals both sides, `Exact` compares the marshaled
bytes, and `Contains` re-unmarshals into generic JSON trees before the
structural walk (`mapContains` / `sliceContains`).  We model the JSON
data as a `Value` tree (numbers as integers), Go's `json.Marshal` as a
character-level serializer that sorts object keys (Go marshals maps in
sorted key order), and the unmarshal/remarshal round trip as `canon`,
which sorts object keys recursively.
-/

namespace MockLLM

/-- Canonical JSON-like value tree (the shape `encoding/json` produces
for `any`): null, booleans, numbers, strings, arrays, objects. -/
inductive Value where
  | null : Value
  | bool : Bool → Value
  | num : Int → Value
  | str : String → Value
  | arr : List Value → Value
  | obj : List (String × Value) → Value

/-- Lexicographic order on character lists; on UTF-8 data this coincides
with Go's byte-wise string order used by `sort.Strings`. -/
def charsLE : List Char → List Char → Bool
  | [], _ => true
  | _ :: _, [] => false
  | c :: cs, d :: ds =>
    if c.toNat < d.toNat then true
    else if d.toNat < c.toNat then false
    else charsLE cs ds

/-- Key order used by Go when marshaling a map: byte-wise string order. -/
def keyLE (p q : String × Value) : Prop := charsLE p.1.data q.1.data = true

instance : DecidableRel keyLE := fun p q =>
  inferInstanceAs (Decidable (charsLE p.1.data q.1.data = true))

/-- Sort an object's fields by key, as `json.Marshal` does for Go maps. -/
def sortKeys (l : List (String × Value)) : List (String × Value) :=
  List.insertionSort keyLE l

mutual

/-- Recursively sort every object's fields by key.  This is the canonical
form produced by Go's unmarshal-into-`any` / marshal round trip. -/
def canon : Value → Value
  | Value.null => Value.null
  | Value.bool b => Value.bool b
  | Value.num n => Value.num n
  | Value.str s => Value.str s
  | Value.arr xs => Value.arr (canonList xs)
  | Value.obj kvs => Value.obj (sortKeys (canonFields kvs))

def canonList : List Value → List Value
  | [] => []
  | v :: vs => canon v :: canonList vs

def canonFields : List (String × Value) → List (String × Value)
  | [] => []
  | (k, v) :: kvs => (k, canon v) :: canonFields kvs

end

/-- One character of Go's JSON string escaping (the default encoder:
HTML-escaping on, `\uXXXX` with lowercase hex). -/
def escChar (c : Char) : List Char :=
  if c = '"' then ['\\', '"']
  else if c = '\\' then ['\\', '\\']
  else if c = '\n' then ['\\', 'n']
  else if c = '\r' then ['\\', 'r']
  else if c = '\t' then ['\\', 't']
  else if c.toNat < 32 ∨ c = '<' ∨ c = '>' ∨ c = '&' then
    ['\\', 'u', '0', '0', Nat.digitChar (c.toNat / 16), Nat.digitChar (c.toNat % 16)]
  else if c.toNat = 0x2028 then ['\\', 'u', '2', '0', '2', '8']
  else if c.toNat = 0x2029 then ['\\', 'u', '2', '0', '2', '9']
  else [c]

/-- Escape the body of a JSON string literal. -/
def escStr (s : List Char) : List Char := s.flatMap escChar

/-- Value of a lowercase hexadecimal digit (used to decode escapes). -/
def hexVal (c : Char) : Nat :=
  if c.isDigit then c.toNat - 48 else c.toNat - 87

/-- Decode one escape-or-literal unit of a JSON string body.  This is
only used to prove that `escChar` is a prefix code. -/
def unescOne : List Char → Option (Char × List Char)
  | '\\' :: '"' :: r => some ('"', r)
  | '\\' :: '\\' :: r => some ('\\', r)
  | '\\' :: 'n' :: r => some ('\n', r)
  | '\\' :: 'r' :: r => some ('\r', r)
  | '\\' :: 't' :: r => some ('\t', r)
  | '\\' :: 'u' :: a :: b :: d :: e :: r =>
    some (Char.ofNat (hexVal a * 4096 + hexVal b * 256 + hexVal d * 16 + hexVal e), r)
  | c :: r => some (c, r)
  | [] => none

/-- Decimal digits of a natural number, most significant first
(fuel-indexed so that the kernel can evaluate it; any fuel above the
number works, see `natCharsAux_fuel`). -/
def natCharsAux : Nat → Nat → List Char
  | 0, _ => []
  | fuel + 1, n =>
    if n < 10 then [Nat.digitChar n]
    else natCharsAux fuel (n / 10) ++ [Nat.digitChar (n % 10)]

/-- Decimal digits of a natural number, most significant first. -/
def natChars (n : Nat) : List Char := natCharsAux (n + 1) n

/-- Serialization of an integer (Go's number formatting for integral values). -/
def serInt (n : Int) : List Char :=
  if n < 0 then '-' :: natChars n.natAbs else natChars n.natAbs

mutual

/-- Character-level model of `json.Marshal` on a canonical value
(object fields are rendered in the order stored; `marshal` sorts first). -/
def ser : Value → List Char
  | Value.null => ['n', 'u', 'l', 'l']
  | Value.bool true => ['t', 'r', 'u', 'e']
  | Value.bool false => ['f', 'a', 'l', 's', 'e']
  | Value.num n => serInt n
  | Value.str s => '"' :: (escStr s.data ++ ['"'])
  | Value.arr xs => '[' :: (serItems xs ++ [']'])
  | Value.obj kvs => '{' :: (serFields kvs ++ ['}'])

def serItems : List Value → List Char
  | [] => []
  | [v] => ser v
  | v :: v' :: vs => ser v ++ ',' :: serItems (v' :: vs)

def serFields : List (String × Value) → List Char
  | [] => []
  | [(k, v)] => '"' :: (escStr k.data ++ ['"', ':']) ++ ser v
  | (k, v) :: kv :: kvs =>
      ('"' :: (escStr k.data ++ ['"', ':']) ++ ser v) ++ ',' :: serFields (kv :: kvs)

end

/-- `json.Marshal` of a value: serialize with all object keys sorted. -/
def marshal (v : Value) : List Char := ser (canon v)

/-- Decode a digit run (used to prove `natChars` injective). -/
def charsVal (ds : List Char) : Nat := ds.foldl (fun a c => 10 * a + (c.toNat - 48)) 0

/-- A continuation that cannot extend a serialized number: empty, or
starting with a non-digit.  Every context in which `ser` emits a value
(commas, closing brackets, end of input) satisfies this. -/
def headSafe : List Char → Prop
  | [] => True
  | c :: _ => c.isDigit = false

/-- Constructor index of a value (proof device for unambiguity). -/
def consIdx : Value → Nat
  | Value.null => 0
  | Value.bool _ => 1
  | Value.num _ => 2
  | Value.str _ => 3
  | Value.arr _ => 4
  | Value.obj _ => 5

/-- The constructor a serialization's first character announces. -/
def headClass (c : Char) : Nat :=
  if c = 'n' then 0
  else if c = 't' ∨ c = 'f' then 1
  else if c = '"' then 3
  else if c = '[' then 4
  else if c = '{' then 5
  else 2

mutual

/-- Body of the per-element `switch` shared by the loops of the source's
`mapContains` and `sliceContains`: the first argument is the actual
value, the second the expected one.  `nil` requires `nil`, maps and
slices recurse (`mapContains` / `sliceContains`, here with their
empty/length guards inlined), every other value (strings included) must
have byte-equal `json.Marshal` output. -/
def elemContains (valA valB : Value) : Bool :=
  match valB with
  | Value.null =>
    match valA with
    | Value.null => true
    | _ => false
  | Value.obj mb =>
    match valA with
    | Value.obj ma => if mb.isEmpty then true else mapContainsLoop ma mb
    | _ => false
  | Value.arr sb =>
    match valA with
    | Value.arr sa =>
      if sb.isEmpty then true
      else if sa.length ≠ sb.length then false
      else sliceContainsLoop sa sb
    | _ => false
  | _ => marshal valA == marshal valB

/-- The `for i, itemB := range b` loop of `sliceContains`. -/
def sliceContainsLoop : List Value → List Value → Bool
  | itemA :: restA, itemB :: restB => elemContains itemA itemB && sliceContainsLoop restA restB
  | _, _ => true

/-- The `for keyB, valB := range b` loop of `mapContains`. -/
def mapContainsLoop (a : List (String × Value)) : List (String × Value) → Bool
  | [] => true
  | (keyB, valB) :: rest =>
    (match a.lookup keyB with
     | none => false
     | some valA => elemContains valA valB) && mapContainsLoop a rest

end

/-- `sliceContains` from the source: true when `b` is empty, false when
the lengths differ, otherwise a positional element-wise check. -/
def sliceContains (a b : List Value) : Bool :=
  if b.isEmpty then true
  else if a.length ≠ b.length then false
  else sliceContainsLoop a b

/-- `mapContains` from the source: true when `b` is empty, otherwise
every key of `b` must be present in `a` with a value passing the
per-element check. -/
def mapContains (a b : List (String × Value)) : Bool :=
  if b.isEmpty then true
  else mapContainsLoop a b

/-- Does the first list start with the second one? -/
def charsStartsWith : List Char → List Char → Bool
  | _, [] => true
  | [], _ :: _ => false
  | c :: cs, d :: ds => c == d && charsStartsWith cs ds

/-- `bytes.Contains` / `strings.Contains`: does the first list contain
the second as a contiguous run? -/
def charsContains : List Char → List Char → Bool
  | [], needle => needle.isEmpty
  | c :: cs, needle => charsStartsWith (c :: cs) needle || charsContains cs needle

/-- The `MatchType` constants of the source configuration model. -/
def MatchTypeExact : String := "exact"

def MatchTypeContains : String := "contains"

/-- `compareMessages` from the source: marshal both sides; `exact`
compares the marshaled bytes; `contains` re-normalizes both sides
(unmarshal of the marshaled bytes, i.e. `canon`) and dispatches on the
expected value's shape; any other match type yields false. -/
def compareMessages (matchType : String) (expected actual : Value) : Bool :=
  let jsonExpected := marshal expected
  let jsonActual := marshal actual
  if matchType = MatchTypeExact then jsonExpected == jsonActual
  else if matchType = MatchTypeContains then
    let expectedVal := canon expected
    let actualVal := canon actual
    match expectedVal with
    | Value.str sv => charsContains jsonActual sv.data
    | Value.obj em =>
      match actualVal with
      | Value.obj am => mapContains am em
      | _ => false
    | Value.arr es =>
      match actualVal with
      | Value.arr as => sliceContains as es
      | _ => false
    | _ => charsContains jsonActual jsonExpected
  else false

/-- `compareMessages` one level up: in Go the two arguments are `any`
and serialization can fail (`json.Marshal` returning an error makes the
function return false).  `none` models an argument that cannot be
marshaled; `some v` an argument normalizing to the value tree `v`. -/
def compareMessagesGo (matchType : String) (expected actual : Option Value) : Bool :=
  match expected with
  | none => false
  | some e =>
    match actual with
    | none => false
    | some a => compareMessages matchType e a

/-- `OpenAIRequestMatch`: a match type and the expected message
(normalized to its value tree). -/
structure OpenAIRequestMatch where
  MatchType : String
  Message : Value

/-- `OpenAIMock`: named mock entry with a match spec and a canned
response (the response payload is opaque to the matching core). -/
structure OpenAIMock where
  Name : String
  Match : OpenAIRequestMatch
  Response : Value

/-- `OpenAIProvider.requestsMatch`: false on an empty conversation,
otherwise the shared comparison against the last message. -/
def openaiRequestsMatch (expected : OpenAIRequestMatch) (messages : List Value) : Bool :=
  match messages.getLast? with
  | none => false
  | some last => compareMessages expected.MatchType expected.Message last

/-- `OpenAIProvider.findMatchingMock`: first mock whose match spec
accepts the request, scanning in registration order. -/
def openaiFindMatchingMock (mocks : List OpenAIMock) (messages : List Value) : Option OpenAIMock :=
  match mocks with
  | [] => none
  | mock :: rest =>
    if openaiRequestsMatch mock.Match messages then some mock
    else openaiFindMatchingMock rest messages

/-- `AnthropicRequestMatch`: a match type and the expected message. -/
structure AnthropicRequestMatch where
  MatchType : String
  Message : Value

/-- `AnthropicMock`: named mock entry for the Anthropic provider. -/
structure AnthropicMock where
  Name : String
  Match : AnthropicRequestMatch
  Response : Value

/-- `AnthropicProvider.requestsMatch`: false on an empty conversation,
otherwise the shared comparison against the last message. -/
def anthropicRequestsMatch (expected : AnthropicRequestMatch) (messages : List Value) : Bool :=
  match messages.getLast? with
  | none => false
  | some last => compareMessages expected.MatchType expected.Message last

/-- `AnthropicProvider.findMatchingMock`. -/
def anthropicFindMatchingMock (mocks : List AnthropicMock) (messages : List Value) :
    Option AnthropicMock :=
  match mocks with
  | [] => none
  | mock :: rest =>
    if anthropicRequestsMatch mock.Match messages then some mock
    else anthropicFindMatchingMock rest messages

/-- `genai.Content` as the Google matcher uses it: a role and the text
of each part. -/
structure GoogleContent where
  Role : String
  Parts : List String

/-- `GoogleRequestMatch`: a match type and the expected content. -/
structure GoogleRequestMatch where
  MatchType : String
  Content : GoogleContent

/-- `GoogleMock`: named mock entry for the Google provider. -/
structure GoogleMock where
  Name : String
  Match : GoogleRequestMatch
  Response : Value

/-- `GoogleRequestBody`: the list of contents of the conversation. -/
structure GoogleRequestBody where
  Contents : List GoogleContent

/-- JSON shape of a `genai.Part` holding only text (`omitempty` drops an
empty text). -/
def partToValue (text : String) : Value :=
  Value.obj (if text = "" then [] else [("text", Value.str text)])

/-- JSON shape of a `genai.Content` (`omitempty` drops empty fields). -/
def contentToValue (c : GoogleContent) : Value :=
  Value.obj
    ((if c.Parts.isEmpty then [] else [("parts", Value.arr (c.Parts.map partToValue))]) ++
      (if c.Role = "" then [] else [("role", Value.str c.Role)]))

/-- The `strExpected` / `strActual` accumulation loops of the Google
matcher: part texts joined with a single space. -/
def joinParts : List String → String
  | [] => ""
  | p :: ps => ps.foldl (fun acc q => acc ++ " " ++ q) p

/-- `GoogleProvider.requestsMatch` from the source: false on an empty
conversation; `exact` compares marshaled contents byte-wise; `contains`
requires equal roles and the joined expected part texts to be a
substring of the joined actual part texts; other match types are false. -/
def googleRequestsMatch (expected : GoogleRequestMatch) (actual : GoogleRequestBody) : Bool :=
  match actual.Contents.getLast? with
  | none => false
  | some lastMessage =>
    if expected.MatchType = MatchTypeExact then
      marshal (contentToValue expected.Content) == marshal (contentToValue lastMessage)
    else if expected.MatchType = MatchTypeContains then
      if lastMessage.Role ≠ expected.Content.Role then false
      else charsContains (joinParts lastMessage.Parts).data (joinParts expected.Content.Parts).data
    else false

/-- `GoogleProvider.findMatchingMock`. -/
def googleFindMatchingMock (mocks : List GoogleMock) (request : GoogleRequestBody) :
    Option GoogleMock :=
  match mocks with
  | [] => none
  | mock :: rest =>
    if googleRequestsMatch mock.Match request then some mock
    else googleFindMatchingMock rest request

/-- An OpenAI mock entry whose stored match value may fail to normalize
(`Message = none` models a match value `json.Marshal` rejects). -/
structure OpenAIMockG where
  Name : String
  MatchType : String
  Message : Option Value
  Response : Value

/-- `requestsMatch` over such entries: the comparison goes through the
fallible marshaling layer. -/
def openaiRequestsMatchG (mock : OpenAIMockG) (messages : List Value) : Bool :=
  match messages.getLast? with
  | none => false
  | some last => compareMessagesGo mock.MatchType mock.Message (some last)

/-- `findMatchingMock` over such entries. -/
def openaiFindMatchingMockG (mocks : List OpenAIMockG) (messages : List Value) :
    Option OpenAIMockG :=
  match mocks with
  | [] => none
  | mock :: rest =>
    if openaiRequestsMatchG mock messages then some mock
    else openaiFindMatchingMockG rest messages

/-! ## Basic facts about characters, the key order, and digit runs -/

theorem charToNatInj {c d : Char} (h : c.toNat = d.toNat) : c = d := by
  apply Char.eq_of_val_eq
  apply UInt32.eq_of_toBitVec_eq
  apply BitVec.eq_of_toNat_eq
  exact h

theorem charsLE_total (a b : List Char) : charsLE a b = true ∨ charsLE b a = true := by
  induction a generalizing b with
  | nil => left; rfl
  | cons c cs ih =>
    cases b with
    | nil => right; rfl
    | cons d ds =>
      by_cases h₁ : c.toNat < d.toNat
      · left; simp [charsLE, h₁]
      · by_cases h₂ : d.toNat < c.toNat
        · right; simp [charsLE, h₂]
        · rcases ih ds with h | h
          · left; simp [charsLE, h₁, h₂, h]
          · right; simp [charsLE, h₁, h₂, h]

theorem charsLE_trans {a b c : List Char} (h₁ : charsLE a b = true)
    (h₂ : charsLE b c = true) : charsLE a c = true := by
  induction a generalizing b c with
  | nil => rfl
  | cons x xs ih =>
    cases b with
    | nil => simp [charsLE] at h₁
    | cons y ys =>
      cases c with
      | nil => simp [charsLE] at h₂
      | cons z zs =>
        simp only [charsLE] at h₁ h₂ ⊢
        split_ifs at h₁ h₂ ⊢ <;>
          first
          | rfl
          | exact ih h₁ h₂
          | omega

theorem charsLE_antisymm {a b : List Char} (h₁ : charsLE a b = true)
    (h₂ : charsLE b a = true) : a = b := by
  induction a generalizing b with
  | nil =>
    cases b with
    | nil => rfl
    | cons y ys => simp [charsLE] at h₂
  | cons x xs ih =>
    cases b with
    | nil => simp [charsLE] at h₁
    | cons y ys =>
      simp only [charsLE] at h₁ h₂
      split_ifs at h₁ h₂ <;> try omega
      have hxy : x = y := charToNatInj (by omega)
      rw [hxy, ih h₁ h₂]

instance : IsTotal (String × Value) keyLE :=
  ⟨fun p q => charsLE_total p.1.data q.1.data⟩

instance : IsTrans (String × Value) keyLE :=
  ⟨fun _ _ _ h₁ h₂ => charsLE_trans h₁ h₂⟩

theorem natCharsAux_fuel {m : Nat} : ∀ {f₁ f₂ : Nat}, m < f₁ → m < f₂ →
    natCharsAux f₁ m = natCharsAux f₂ m := by
  induction m using Nat.strong_induction_on with
  | _ m ih =>
    intro f₁ f₂ h₁ h₂
    match f₁, f₂ with
    | g₁ + 1, g₂ + 1 =>
      simp only [natCharsAux]
      by_cases hm : m < 10
      · simp [hm]
      · have hrec : m / 10 < m := Nat.div_lt_self (by omega) (by omega)
        have e₁ : natCharsAux g₁ (m / 10) = natCharsAux (m / 10 + 1) (m / 10) :=
          ih _ hrec (by omega) (by omega)
        have e₂ : natCharsAux g₂ (m / 10) = natCharsAux (m / 10 + 1) (m / 10) :=
          ih _ hrec (by omega) (by omega)
        simp only [hm, if_false]
        rw [e₁, e₂]

theorem natChars_small {m : Nat} (hm : m < 10) : natChars m = [Nat.digitChar m] := by
  show natCharsAux (m + 1) m = _
  simp only [natCharsAux]
  rw [if_pos hm]

theorem natChars_big {m : Nat} (hm : ¬m < 10) :
    natChars m = natChars (m / 10) ++ [Nat.digitChar (m % 10)] := by
  have hrec : m / 10 < m := Nat.div_lt_self (by omega) (by omega)
  have h1 : natCharsAux (m + 1) m = natCharsAux m (m / 10) ++ [Nat.digitChar (m % 10)] := by
    simp only [natCharsAux]
    rw [if_neg hm]
  show natCharsAux (m + 1) m = _
  rw [h1]
  have h2 : natCharsAux m (m / 10) = natCharsAux (m / 10 + 1) (m / 10) :=
    natCharsAux_fuel hrec (Nat.lt_succ_self _)
  rw [h2]
  rfl

theorem digitChar_isDigit {m : Nat} (h : m < 10) : (Nat.digitChar m).isDigit = true := by
  interval_cases m <;> decide

theorem digitChar_val {m : Nat} (h : m < 10) : (Nat.digitChar m).toNat - 48 = m := by
  interval_cases m <;> decide

theorem natChars_digits (m : Nat) : ∀ c ∈ natChars m, c.isDigit = true := by
  induction m using Nat.strong_induction_on with
  | _ m ih =>
    by_cases hm : m < 10
    · rw [natChars_small hm]
      simp [digitChar_isDigit hm]
    · have hrec : m / 10 < m := Nat.div_lt_self (by omega) (by omega)
      rw [natChars_big hm]
      intro c hc
      rcases List.mem_append.mp hc with h | h
      · exact ih _ hrec c h
      · simp at h
        rw [h]
        exact digitChar_isDigit (by omega)

theorem natChars_ne_nil (m : Nat) : natChars m ≠ [] := by
  by_cases hm : m < 10
  · rw [natChars_small hm]; simp
  · rw [natChars_big hm]; simp

theorem charsVal_natChars (m : Nat) : charsVal (natChars m) = m := by
  induction m using Nat.strong_induction_on with
  | _ m ih =>
    by_cases hm : m < 10
    · rw [natChars_small hm]
      simp [charsVal, digitChar_val hm]
    · have hrec : m / 10 < m := Nat.div_lt_self (by omega) (by omega)
      rw [natChars_big hm]
      simp only [charsVal, List.foldl_append, List.foldl_cons, List.foldl_nil]
      have := ih _ hrec
      simp only [charsVal] at this
      rw [this, digitChar_val (by omega)]
      omega

theorem natChars_inj {m₁ m₂ : Nat} (h : natChars m₁ = natChars m₂) : m₁ = m₂ := by
  rw [← charsVal_natChars m₁, ← charsVal_natChars m₂, h]

/-- A digit run followed by a non-digit is parsed unambiguously. -/
theorem digitRunInj : ∀ {ds₁ ds₂ r₁ r₂ : List Char},
    (∀ c ∈ ds₁, c.isDigit = true) → (∀ c ∈ ds₂, c.isDigit = true) →
    headSafe r₁ → headSafe r₂ → ds₁ ++ r₁ = ds₂ ++ r₂ → ds₁ = ds₂ ∧ r₁ = r₂ := by
  intro ds₁
  induction ds₁ with
  | nil =>
    intro ds₂ r₁ r₂ _ hd₂ hs₁ _ he
    cases ds₂ with
    | nil => exact ⟨rfl, he⟩
    | cons d ds =>
      simp only [List.nil_append, List.cons_append] at he
      rw [he] at hs₁
      have := hd₂ d (by simp)
      simp [headSafe, this] at hs₁
  | cons c cs ih =>
    intro ds₂ r₁ r₂ hd₁ hd₂ hs₁ hs₂ he
    cases ds₂ with
    | nil =>
      simp only [List.cons_append, List.nil_append] at he
      rw [← he] at hs₂
      have := hd₁ c (by simp)
      simp [headSafe, this] at hs₂
    | cons d ds =>
      simp only [List.cons_append, List.cons.injEq] at he
      obtain ⟨hcd, he⟩ := he
      obtain ⟨h₁, h₂⟩ := ih (fun x hx => hd₁ x (by simp [hx]))
        (fun x hx => hd₂ x (by simp [hx])) hs₁ hs₂ he
      exact ⟨by rw [hcd, h₁], h₂⟩

theorem serIntShape (n : Int) : ∃ c t, serInt n = c :: t ∧
    (c = '-' ∨ c.isDigit = true) := by
  unfold serInt
  by_cases hn : n < 0
  · exact ⟨'-', natChars n.natAbs, by simp [hn], Or.inl rfl⟩
  · obtain ⟨c, t, hct⟩ : ∃ c t, natChars n.natAbs = c :: t := by
      cases h : natChars n.natAbs with
      | nil => exact absurd h (natChars_ne_nil _)
      | cons c t => exact ⟨c, t, rfl⟩
    refine ⟨c, t, by simp [hn, hct], Or.inr ?_⟩
    exact natChars_digits n.natAbs c (by rw [hct]; simp)

theorem serIntInj {n₁ n₂ : Int} {r₁ r₂ : List Char} (hs₁ : headSafe r₁)
    (hs₂ : headSafe r₂) (he : serInt n₁ ++ r₁ = serInt n₂ ++ r₂) :
    n₁ = n₂ ∧ r₁ = r₂ := by
  unfold serInt at he
  by_cases h₁ : n₁ < 0 <;> by_cases h₂ : n₂ < 0 <;> simp only [h₁, h₂, if_true, if_false] at he
  · simp only [List.cons_append, List.cons.injEq] at he
    obtain ⟨hd, ht⟩ := digitRunInj (natChars_digits _) (natChars_digits _) hs₁ hs₂ he.2
    exact ⟨by have := natChars_inj hd; omega, ht⟩
  · obtain ⟨c, t, hct⟩ : ∃ c t, natChars n₂.natAbs = c :: t := by
      cases h : natChars n₂.natAbs with
      | nil => exact absurd h (natChars_ne_nil _)
      | cons c t => exact ⟨c, t, rfl⟩
    rw [hct] at he
    simp only [List.cons_append, List.cons.injEq] at he
    have hdig := natChars_digits n₂.natAbs c (by rw [hct]; simp)
    rw [← he.1] at hdig
    simp at hdig
  · obtain ⟨c, t, hct⟩ : ∃ c t, natChars n₁.natAbs = c :: t := by
      cases h : natChars n₁.natAbs with
      | nil => exact absurd h (natChars_ne_nil _)
      | cons c t => exact ⟨c, t, rfl⟩
    rw [hct] at he
    simp only [List.cons_append, List.cons.injEq] at he
    have hdig := natChars_digits n₁.natAbs c (by rw [hct]; simp)
    rw [he.1] at hdig
    simp at hdig
  · obtain ⟨hd, ht⟩ := digitRunInj (natChars_digits _) (natChars_digits _) hs₁ hs₂ he
    exact ⟨by have := natChars_inj hd; omega, ht⟩

/-! ## The escaping of string literals is a prefix code -/

theorem hexVal_digitChar : ∀ m < 16, hexVal (Nat.digitChar m) = m := by decide

theorem unescOne_escChar (c : Char) (r : List Char) :
    unescOne (escChar c ++ r) = some (c, r) := by
  unfold escChar
  split_ifs with h1 h2 h3 h4 h5 h6 h7 h8
  · subst h1; rfl
  · subst h2; rfl
  · subst h3; rfl
  · subst h4; rfl
  · subst h5; rfl
  · have hb : c.toNat < 64 := by
      rcases h6 with h | h | h | h
      · omega
      all_goals subst h; decide
    simp only [List.cons_append, unescOne]
    rw [hexVal_digitChar _ (by omega), hexVal_digitChar _ (by omega)]
    have he : hexVal '0' * 4096 + hexVal '0' * 256 + c.toNat / 16 * 16 + c.toNat % 16 =
        c.toNat := by
      have h0 : hexVal '0' = 0 := rfl
      rw [h0]; omega
    rw [he, Char.ofNat_toNat]
    simp
  · simp only [List.cons_append, unescOne]
    have he : hexVal '2' * 4096 + hexVal '0' * 256 + hexVal '2' * 16 + hexVal '8' =
        c.toNat := by
      rw [h7]; decide
    rw [he, Char.ofNat_toNat]
    simp
  · simp only [List.cons_append, unescOne]
    have he : hexVal '2' * 4096 + hexVal '0' * 256 + hexVal '2' * 16 + hexVal '9' =
        c.toNat := by
      rw [h8]; decide
    rw [he, Char.ofNat_toNat]
    simp
  · simp only [List.singleton_append]
    simp [unescOne, h2]

theorem escCharInj2 {c₁ c₂ : Char} {t₁ t₂ : List Char}
    (h : escChar c₁ ++ t₁ = escChar c₂ ++ t₂) : c₁ = c₂ ∧ t₁ = t₂ := by
  have h₁ := unescOne_escChar c₁ t₁
  rw [h, unescOne_escChar c₂ t₂] at h₁
  simp only [Option.some.injEq, Prod.mk.injEq] at h₁
  exact ⟨h₁.1.symm, h₁.2.symm⟩

theorem escChar_ne_nil (c : Char) : escChar c ≠ [] := by
  unfold escChar
  split_ifs <;> simp

theorem escCharHeadNeQuote (c : Char) : ∀ d t, escChar c = d :: t → d ≠ '"' := by
  unfold escChar
  split_ifs with g1 g2 g3 g4 g5 g6 g7 g8 <;> intro d t h <;>
    simp only [List.cons.injEq] at h <;> rw [← h.1] <;>
    first
    | decide
    | exact g1

theorem escStrQuote : ∀ {s₁ : List Char}, ∀ {s₂ t₁ t₂ : List Char},
    escStr s₁ ++ '"' :: t₁ = escStr s₂ ++ '"' :: t₂ → s₁ = s₂ ∧ t₁ = t₂ := by
  intro s₁
  induction s₁ with
  | nil =>
    intro s₂ t₁ t₂ he
    cases s₂ with
    | nil =>
      simp only [escStr, List.flatMap_nil, List.nil_append, List.cons.injEq] at he
      exact ⟨rfl, he.2⟩
    | cons c cs =>
      simp only [escStr, List.flatMap_nil, List.flatMap_cons, List.nil_append,
        List.append_assoc] at he
      cases hc : escChar c with
      | nil => exact absurd hc (escChar_ne_nil c)
      | cons d ds =>
        rw [hc] at he
        simp only [List.cons_append, List.cons.injEq] at he
        exact absurd he.1.symm (escCharHeadNeQuote c d ds hc)
  | cons c cs ih =>
    intro s₂ t₁ t₂ he
    cases s₂ with
    | nil =>
      simp only [escStr, List.flatMap_nil, List.flatMap_cons, List.nil_append,
        List.append_assoc] at he
      cases hc : escChar c with
      | nil => exact absurd hc (escChar_ne_nil c)
      | cons d ds =>
        rw [hc] at he
        simp only [List.cons_append, List.cons.injEq] at he
        exact absurd he.1 (escCharHeadNeQuote c d ds hc)
    | cons c₂ cs₂ =>
      simp only [escStr, List.flatMap_cons, List.append_assoc] at he
      obtain ⟨hc, ht⟩ := escCharInj2 he
      obtain ⟨h₁, h₂⟩ := ih ht
      exact ⟨by rw [hc, h₁], h₂⟩

theorem escStrInj {s₁ s₂ : List Char} (h : escStr s₁ = escStr s₂) : s₁ = s₂ := by
  have : escStr s₁ ++ '"' :: [] = escStr s₂ ++ '"' :: [] := by rw [h]
  exact (escStrQuote this).1

/-! ## The serializer is unambiguous -/

theorem serShape (v : Value) : ∃ c t, ser v = c :: t ∧
    (c = 'n' ∨ c = 't' ∨ c = 'f' ∨ c = '-' ∨ c.isDigit = true ∨
      c = '"' ∨ c = '[' ∨ c = '{') := by
  cases v with
  | null => exact ⟨'n', _, rfl, by simp⟩
  | bool b =>
    cases b with
    | false => exact ⟨'f', _, rfl, by simp⟩
    | true => exact ⟨'t', _, rfl, by simp⟩
  | num n =>
    obtain ⟨c, t, hct, hc⟩ := serIntShape n
    exact ⟨c, t, hct, by tauto⟩
  | str s => exact ⟨'"', _, rfl, by simp⟩
  | arr xs => exact ⟨'[', _, rfl, by simp⟩
  | obj kvs => exact ⟨'{', _, rfl, by simp⟩

theorem serHeadNeRBrack (v : Value) : ∀ c t, ser v = c :: t → c ≠ ']' := by
  intro c t h
  obtain ⟨c', t', hct, hc⟩ := serShape v
  rw [h] at hct
  injection hct with hc' _
  rw [← hc'] at hc
  rcases hc with rfl | rfl | rfl | rfl | hd | rfl | rfl | rfl
  any_goals decide
  intro heq
  rw [heq] at hd
  exact absurd hd (by decide)

theorem serHeadNeRBrace (v : Value) : ∀ c t, ser v = c :: t → c ≠ '}' := by
  intro c t h
  obtain ⟨c', t', hct, hc⟩ := serShape v
  rw [h] at hct
  injection hct with hc' _
  rw [← hc'] at hc
  rcases hc with rfl | rfl | rfl | rfl | hd | rfl | rfl | rfl
  any_goals decide
  intro heq
  rw [heq] at hd
  exact absurd hd (by decide)

theorem serItems_cons (x : Value) (l : List Value) :
    serItems (x :: l) = ser x ++ (if l.isEmpty then [] else ',' :: serItems l) := by
  cases l <;> simp [serItems]

theorem serFields_cons (k : String) (v : Value) (l : List (String × Value)) :
    serFields ((k, v) :: l) =
      '"' :: (escStr k.data ++ '"' :: ':' ::
        (ser v ++ (if l.isEmpty then [] else ',' :: serFields l))) := by
  cases l with
  | nil => simp [serFields]
  | cons p ps => cases p; simp [serFields]

theorem serItemsInjAux : ∀ (xs : List Value),
    (∀ x ∈ xs, ∀ v₂ r₁ r₂, headSafe r₁ → headSafe r₂ →
      ser x ++ r₁ = ser v₂ ++ r₂ → x = v₂ ∧ r₁ = r₂) →
    ∀ ys r₁ r₂, serItems xs ++ ']' :: r₁ = serItems ys ++ ']' :: r₂ →
    xs = ys ∧ r₁ = r₂ := by
  intro xs
  induction xs with
  | nil =>
    intro _ ys r₁ r₂ he
    cases ys with
    | nil =>
      simp only [serItems, List.nil_append, List.cons.injEq] at he
      exact ⟨rfl, he.2⟩
    | cons y ys' =>
      rw [serItems_cons] at he
      simp only [serItems, List.nil_append, List.append_assoc] at he
      obtain ⟨c, t, hct, _⟩ := serShape y
      rw [hct] at he
      simp only [List.cons_append, List.cons.injEq] at he
      exact absurd he.1.symm (serHeadNeRBrack y c t hct)
  | cons x xs' ih =>
    intro ihv ys r₁ r₂ he
    cases ys with
    | nil =>
      rw [serItems_cons] at he
      simp only [serItems, List.nil_append, List.append_assoc] at he
      obtain ⟨c, t, hct, _⟩ := serShape x
      rw [hct] at he
      simp only [List.cons_append, List.cons.injEq] at he
      exact absurd he.1 (serHeadNeRBrack x c t hct)
    | cons y ys' =>
      rw [serItems_cons, serItems_cons] at he
      rw [List.append_assoc, List.append_assoc] at he
      have hs₁ : headSafe ((if xs'.isEmpty then [] else ',' :: serItems xs') ++ ']' :: r₁) := by
        cases xs' with
        | nil =>
          simp only [List.isEmpty_nil, ite_true, List.nil_append]
          show (']').isDigit = false
          decide
        | cons w ws =>
          simp only [List.isEmpty_cons, Bool.false_eq_true, ite_false, List.cons_append]
          show (',').isDigit = false
          decide
      have hs₂ : headSafe ((if ys'.isEmpty then [] else ',' :: serItems ys') ++ ']' :: r₂) := by
        cases ys' with
        | nil =>
          simp only [List.isEmpty_nil, ite_true, List.nil_append]
          show (']').isDigit = false
          decide
        | cons w ws =>
          simp only [List.isEmpty_cons, Bool.false_eq_true, ite_false, List.cons_append]
          show (',').isDigit = false
          decide
      obtain ⟨hxy, ht⟩ := ihv x (List.mem_cons_self x xs') y _ _ hs₁ hs₂ he
      cases xs' with
      | nil =>
        cases ys' with
        | nil =>
          simp only [List.isEmpty_nil, if_true, List.nil_append, List.cons.injEq, ite_true] at ht
          exact ⟨by rw [hxy], ht.2⟩
        | cons z zs =>
          simp at ht
      | cons w ws =>
        cases ys' with
        | nil => simp at ht
        | cons z zs =>
          simp only [List.isEmpty_cons, if_false, List.cons_append, List.cons.injEq,
            Bool.false_eq_true, ite_false] at ht
          obtain ⟨h₁, h₂⟩ := ih (fun a ha => ihv a (List.mem_cons_of_mem _ ha)) (z :: zs) r₁ r₂ ht.2
          exact ⟨by rw [hxy, h₁], h₂⟩

theorem serFieldsInjAux : ∀ (kvs : List (String × Value)),
    (∀ p ∈ kvs, ∀ v₂ r₁ r₂, headSafe r₁ → headSafe r₂ →
      ser p.2 ++ r₁ = ser v₂ ++ r₂ → p.2 = v₂ ∧ r₁ = r₂) →
    ∀ kvs₂ r₁ r₂, serFields kvs ++ '}' :: r₁ = serFields kvs₂ ++ '}' :: r₂ →
    kvs = kvs₂ ∧ r₁ = r₂ := by
  intro kvs
  induction kvs with
  | nil =>
    intro _ kvs₂ r₁ r₂ he
    cases kvs₂ with
    | nil =>
      simp only [serFields, List.nil_append, List.cons.injEq] at he
      exact ⟨rfl, he.2⟩
    | cons p ps =>
      obtain ⟨k, v⟩ := p
      rw [serFields_cons] at he
      simp only [serFields, List.nil_append, List.cons_append, List.cons.injEq] at he
      exact absurd he.1 (by decide)
  | cons p kvs' ih =>
    obtain ⟨k, v⟩ := p
    intro ihv kvs₂ r₁ r₂ he
    cases kvs₂ with
    | nil =>
      rw [serFields_cons] at he
      simp only [serFields, List.nil_append, List.cons_append, List.cons.injEq] at he
      exact absurd he.1.symm (by decide)
    | cons q kvs₂' =>
      obtain ⟨k₂, v₂⟩ := q
      rw [serFields_cons, serFields_cons] at he
      simp only [List.cons_append, List.cons.injEq, List.append_assoc] at he
      have hq := escStrQuote he.2
      obtain ⟨hk, ht⟩ := hq
      simp only [List.cons.injEq] at ht
      have hv := ht.2
      have hs₁ : headSafe ((if kvs'.isEmpty then [] else ',' :: serFields kvs') ++ '}' :: r₁) := by
        cases kvs' with
        | nil =>
          simp only [List.isEmpty_nil, ite_true, List.nil_append]
          show ('}').isDigit = false
          decide
        | cons w ws =>
          simp only [List.isEmpty_cons, Bool.false_eq_true, ite_false, List.cons_append]
          show (',').isDigit = false
          decide
      have hs₂ : headSafe ((if kvs₂'.isEmpty then [] else ',' :: serFields kvs₂') ++
          '}' :: r₂) := by
        cases kvs₂' with
        | nil =>
          simp only [List.isEmpty_nil, ite_true, List.nil_append]
          show ('}').isDigit = false
          decide
        | cons w ws =>
          simp only [List.isEmpty_cons, Bool.false_eq_true, ite_false, List.cons_append]
          show (',').isDigit = false
          decide
      obtain ⟨hvv, htt⟩ := ihv (k, v) (List.mem_cons_self _ _) v₂ _ _ hs₁ hs₂ hv
      cases kvs' with
      | nil =>
        cases kvs₂' with
        | nil =>
          simp only [List.isEmpty_nil, if_true, List.nil_append, List.cons.injEq, ite_true] at htt
          have hv2 : v = v₂ := hvv
          refine ⟨?_, htt.2⟩
          rw [String.ext hk, hv2]
        | cons z zs => simp at htt
      | cons w ws =>
        cases kvs₂' with
        | nil => simp at htt
        | cons z zs =>
          simp only [List.isEmpty_cons, if_false, List.cons_append, List.cons.injEq,
            Bool.false_eq_true, ite_false] at htt
          obtain ⟨h₁, h₂⟩ := ih (fun a ha => ihv a (List.mem_cons_of_mem _ ha)) (z :: zs) r₁ r₂
            htt.2
          have hv2 : v = v₂ := hvv
          refine ⟨?_, h₂⟩
          rw [String.ext hk, hv2, h₁]

theorem serHeadClass (v : Value) : ∀ c t, ser v = c :: t → headClass c = consIdx v := by
  cases v with
  | null =>
    intro c t h
    injection h with h1 _
    rw [← h1]
    decide
  | bool b =>
    cases b <;> intro c t h <;> injection h with h1 _ <;> rw [← h1] <;> decide
  | num n =>
    intro c t h
    obtain ⟨c', t', hct, hc⟩ := serIntShape n
    have h' : ser (Value.num n) = c' :: t' := hct
    rw [h] at h'
    injection h' with h1 _
    subst h1
    rcases hc with rfl | hd
    · simp [headClass, consIdx]
    · have h1 : c ≠ 'n' := by intro hh; rw [hh] at hd; exact absurd hd (by decide)
      have h2 : ¬(c = 't' ∨ c = 'f') := by
        rintro (hh | hh) <;> rw [hh] at hd <;> exact absurd hd (by decide)
      have h3 : c ≠ '"' := by intro hh; rw [hh] at hd; exact absurd hd (by decide)
      have h4 : c ≠ '[' := by intro hh; rw [hh] at hd; exact absurd hd (by decide)
      have h5 : c ≠ '{' := by intro hh; rw [hh] at hd; exact absurd hd (by decide)
      simp only [headClass, if_neg h1, if_neg h2, if_neg h3, if_neg h4, if_neg h5, consIdx]
  | str s =>
    intro c t h
    injection h with h1 _
    rw [← h1]
    simp [headClass, consIdx]
  | arr xs =>
    intro c t h
    injection h with h1 _
    rw [← h1]
    simp [headClass, consIdx]
  | obj kvs =>
    intro c t h
    injection h with h1 _
    rw [← h1]
    simp [headClass, consIdx]

theorem serInjAux : ∀ (n : Nat) (v₁ : Value), sizeOf v₁ ≤ n →
    ∀ (v₂ : Value) (r₁ r₂ : List Char), headSafe r₁ → headSafe r₂ →
    ser v₁ ++ r₁ = ser v₂ ++ r₂ → v₁ = v₂ ∧ r₁ = r₂ := by
  intro n
  induction n using Nat.strong_induction_on with
  | _ n ih =>
    intro v₁ hsz v₂ r₁ r₂ h₁ h₂ he
    have hclass : consIdx v₁ = consIdx v₂ := by
      obtain ⟨c₁, t₁', hct₁, _⟩ := serShape v₁
      obtain ⟨c₂, t₂', hct₂, _⟩ := serShape v₂
      have hcc : c₁ = c₂ := by
        rw [hct₁, hct₂] at he
        simp only [List.cons_append, List.cons.injEq] at he
        exact he.1
      rw [← serHeadClass v₁ c₁ t₁' hct₁, ← serHeadClass v₂ c₂ t₂' hct₂, hcc]
    cases v₁ <;> cases v₂ <;> try simp [consIdx] at hclass
    -- null / null
    · exact ⟨rfl, List.append_cancel_left he⟩
    -- bool / bool
    · next b b₂ =>
        cases b <;> cases b₂ <;>
          first
          | exact ⟨rfl, List.append_cancel_left he⟩
          | simp [ser] at he
    -- num / num
    · next n₁ n₂ =>
        simp only [ser] at he
        obtain ⟨hn, hr⟩ := serIntInj h₁ h₂ he
        exact ⟨by rw [hn], hr⟩
    -- str / str
    · next s₁ s₂ =>
        simp only [ser, List.cons_append, List.cons.injEq, List.append_assoc,
          List.singleton_append, true_and] at he
        obtain ⟨hs, hr⟩ := escStrQuote he
        exact ⟨by rw [String.ext hs], hr⟩
    -- arr / arr
    · next xs ys =>
        simp only [ser, List.cons_append, List.cons.injEq, List.append_assoc,
          List.singleton_append, true_and] at he
        have ihv : ∀ x ∈ xs, ∀ w r₁' r₂', headSafe r₁' → headSafe r₂' →
            ser x ++ r₁' = ser w ++ r₂' → x = w ∧ r₁' = r₂' := by
          intro x hx w r₁' r₂' hh₁ hh₂ hhe
          have hmem := List.sizeOf_lt_of_mem hx
          have hspec : sizeOf (Value.arr xs) = 1 + sizeOf xs := by simp
          exact ih (sizeOf x) (by omega) x (le_refl _) w r₁' r₂' hh₁ hh₂ hhe
        obtain ⟨hxs, hr⟩ := serItemsInjAux xs ihv ys r₁ r₂ he
        exact ⟨by rw [hxs], hr⟩
    -- obj / obj
    · next kvs kvs₂ =>
        simp only [ser, List.cons_append, List.cons.injEq, List.append_assoc,
          List.singleton_append, true_and] at he
        have ihv : ∀ p ∈ kvs, ∀ w r₁' r₂', headSafe r₁' → headSafe r₂' →
            ser p.2 ++ r₁' = ser w ++ r₂' → p.2 = w ∧ r₁' = r₂' := by
          intro p hp w r₁' r₂' hh₁ hh₂ hhe
          obtain ⟨pk, pv⟩ := p
          have hmem := List.sizeOf_lt_of_mem hp
          have hpair : sizeOf (pk, pv) = 1 + sizeOf pk + sizeOf pv := by simp
          have hspec : sizeOf (Value.obj kvs) = 1 + sizeOf kvs := by simp
          exact ih (sizeOf pv) (by omega) pv (le_refl _) w r₁' r₂' hh₁ hh₂ hhe
        obtain ⟨hkvs, hr⟩ := serFieldsInjAux kvs ihv kvs₂ r₁ r₂ he
        exact ⟨by rw [hkvs], hr⟩

/-- The serializer is injective. -/
theorem serInj {v₁ v₂ : Value} (h : ser v₁ = ser v₂) : v₁ = v₂ := by
  have he : ser v₁ ++ ([] : List Char) = ser v₂ ++ [] := by rw [h]
  exact (serInjAux (sizeOf v₁) v₁ (le_refl _) v₂ [] [] trivial trivial he).1

theorem marshalInjCanon {v₁ v₂ : Value} (h : marshal v₁ = marshal v₂) :
    canon v₁ = canon v₂ := serInj h

/-! ## Unfolding facts about the matcher and the scans -/

theorem compareMessages_exact (e a : Value) :
    compareMessages MatchTypeExact e a = (marshal e == marshal a) := rfl

theorem compareMessages_other {mt : String} (hex : mt ≠ MatchTypeExact)
    (hco : mt ≠ MatchTypeContains) (e a : Value) : compareMessages mt e a = false := by
  unfold compareMessages
  rw [if_neg hex, if_neg hco]

theorem openaiRequestsMatch_nil (e : OpenAIRequestMatch) :
    openaiRequestsMatch e [] = false := rfl

theorem openaiRequestsMatch_last (e : OpenAIRequestMatch) {messages : List Value} {last : Value}
    (h : messages.getLast? = some last) :
    openaiRequestsMatch e messages = compareMessages e.MatchType e.Message last := by
  unfold openaiRequestsMatch
  rw [h]

theorem anthropicRequestsMatch_last (e : AnthropicRequestMatch) {messages : List Value}
    {last : Value} (h : messages.getLast? = some last) :
    anthropicRequestsMatch e messages = compareMessages e.MatchType e.Message last := by
  unfold anthropicRequestsMatch
  rw [h]

/-! ## Claim C1: first registered matching entry wins -/

/-- C1: for every registry split `pre ++ m :: post` where no entry of
`pre` matches the conversation and `m` does, the dispatch scan returns
exactly `m` — for every `post`, so later entries (matching or not) can
never influence the result, and the returned entry is the one with the
lowest registration index among all matching entries. -/
theorem dispatchFirstMatchWins (pre post : List OpenAIMock) (m : OpenAIMock)
    (messages : List Value)
    (hpre : ∀ m' ∈ pre, openaiRequestsMatch m'.Match messages = false)
    (hm : openaiRequestsMatch m.Match messages = true) :
    openaiFindMatchingMock (pre ++ m :: post) messages = some m := by
  induction pre with
  | nil => simp [openaiFindMatchingMock, hm]
  | cons p ps ih =>
    have hp := hpre p (List.mem_cons_self p ps)
    simp only [List.cons_append, openaiFindMatchingMock, hp, Bool.false_eq_true, if_false,
      ite_false]
    exact ih fun m' hm' => hpre m' (List.mem_cons_of_mem p hm')

/-- Witness for C1 at a concrete three-entry registry: the first
(non-matching) entry is skipped, the second is returned, and the
matching third entry is ignored. -/
theorem dispatchFirstMatchWins_witness :
    openaiFindMatchingMock
      [⟨"a", ⟨MatchTypeExact, Value.str "x"⟩, Value.null⟩,
        ⟨"b", ⟨MatchTypeContains, Value.str "hi"⟩, Value.bool true⟩,
        ⟨"c", ⟨MatchTypeContains, Value.str "hi"⟩, Value.bool false⟩]
      [Value.str "hi there"] =
      some ⟨"b", ⟨MatchTypeContains, Value.str "hi"⟩, Value.bool true⟩ :=
  dispatchFirstMatchWins
    [⟨"a", ⟨MatchTypeExact, Value.str "x"⟩, Value.null⟩]
    [⟨"c", ⟨MatchTypeContains, Value.str "hi"⟩, Value.bool false⟩]
    ⟨"b", ⟨MatchTypeContains, Value.str "hi"⟩, Value.bool true⟩
    [Value.str "hi there"]
    (by decide) (by decide)

/-! ## Claim C3: the empty conversation never matches -/

/-- C3: for every registry of every vendor, dispatching a conversation
with zero messages returns the not-found outcome. -/
theorem emptyConversationNeverMatches :
    (∀ mocks : List OpenAIMock, openaiFindMatchingMock mocks [] = none) ∧
    (∀ mocks : List AnthropicMock, anthropicFindMatchingMock mocks [] = none) ∧
    (∀ mocks : List GoogleMock, googleFindMatchingMock mocks ⟨[]⟩ = none) := by
  refine ⟨?_, ?_, ?_⟩
  · intro mocks
    induction mocks with
    | nil => rfl
    | cons m rest ih => simpa [openaiFindMatchingMock, openaiRequestsMatch] using ih
  · intro mocks
    induction mocks with
    | nil => rfl
    | cons m rest ih => simpa [anthropicFindMatchingMock, anthropicRequestsMatch] using ih
  · intro mocks
    induction mocks with
    | nil => rfl
    | cons m rest ih => simpa [googleFindMatchingMock, googleRequestsMatch] using ih

/-! ## Claim C10: unknown match types never match and are skipped -/

/-- C10: a match type that is neither `"exact"` nor `"contains"` makes
the matcher return false on every pair of values, and a registry entry
carrying such a match type is transparently skipped by the scan. -/
theorem unknownMatchTypeNeverMatches (mt : String) (hex : mt ≠ MatchTypeExact)
    (hco : mt ≠ MatchTypeContains) :
    (∀ e a : Value, compareMessages mt e a = false) ∧
    (∀ (pre post : List OpenAIMock) (m : OpenAIMock) (messages : List Value),
      m.Match.MatchType = mt →
      openaiFindMatchingMock (pre ++ m :: post) messages =
        openaiFindMatchingMock (pre ++ post) messages) := by
  constructor
  · exact fun e a => compareMessages_other hex hco e a
  · intro pre post m messages hmt
    have hm : openaiRequestsMatch m.Match messages = false := by
      unfold openaiRequestsMatch
      cases h : messages.getLast? with
      | none => rfl
      | some last => rw [hmt]; exact compareMessages_other hex hco _ _
    induction pre with
    | nil => simp [openaiFindMatchingMock, hm]
    | cons p ps ih =>
      simp only [List.cons_append, openaiFindMatchingMock]
      by_cases hp : openaiRequestsMatch p.Match messages = true
      · simp [hp]
      · simp only [Bool.not_eq_true] at hp
        simp [hp, ih]

/-- Witness for C10 at the concrete match type `"fuzzy"`. -/
theorem unknownMatchTypeNeverMatches_witness :
    (∀ e a : Value, compareMessages "fuzzy" e a = false) ∧
    (∀ (pre post : List OpenAIMock) (m : OpenAIMock) (messages : List Value),
      m.Match.MatchType = "fuzzy" →
      openaiFindMatchingMock (pre ++ m :: post) messages =
        openaiFindMatchingMock (pre ++ post) messages) :=
  unknownMatchTypeNeverMatches "fuzzy" (by decide) (by decide)

/-! ## Claim C8: totality, and malformed match values only skip one entry -/

/-- C8: the matcher is a total boolean function; an argument whose
marshaling fails (modelled as `none`) makes it return false rather than
raise; and during a scan an entry whose stored match value cannot be
normalized is skipped while the scan continues over all other entries. -/
theorem matcherTotalMalformedSkipped :
    (∀ (mt : String) (e a : Option Value),
      compareMessagesGo mt e a = true ∨ compareMessagesGo mt e a = false) ∧
    (∀ (mt : String) (a : Option Value), compareMessagesGo mt none a = false) ∧
    (∀ (pre post : List OpenAIMockG) (bad : OpenAIMockG) (messages : List Value),
      bad.Message = none →
      openaiFindMatchingMockG (pre ++ bad :: post) messages =
        openaiFindMatchingMockG (pre ++ post) messages) := by
  refine ⟨?_, ?_, ?_⟩
  · intro mt e a
    cases compareMessagesGo mt e a
    · right; rfl
    · left; rfl
  · intro mt a; rfl
  · intro pre post bad messages hbad
    have hb : openaiRequestsMatchG bad messages = false := by
      unfold openaiRequestsMatchG
      cases h : messages.getLast? with
      | none => rfl
      | some last => rw [hbad]; rfl
    induction pre with
    | nil => simp [openaiFindMatchingMockG, hb]
    | cons p ps ih =>
      simp only [List.cons_append, openaiFindMatchingMockG]
      by_cases hp : openaiRequestsMatchG p messages = true
      · simp [hp]
      · simp only [Bool.not_eq_true] at hp
        simp [hp, ih]

/-- Witness for C8's skip property at a concrete registry: the entry
with the unmarshalable match value is passed over and the later good
entry is still found. -/
theorem charsStartsWith_iff : ∀ {nd hay : List Char},
    charsStartsWith hay nd = true ↔ ∃ t, hay = nd ++ t := by
  intro nd
  induction nd with
  | nil =>
    intro hay
    simp [charsStartsWith]
  | cons d ds ih =>
    intro hay
    cases hay with
    | nil => simp [charsStartsWith]
    | cons c cs =>
      simp only [charsStartsWith, Bool.and_eq_true, beq_iff_eq, ih, List.cons_append,
        List.cons.injEq]
      constructor
      · rintro ⟨rfl, t, rfl⟩
        exact ⟨t, rfl, rfl⟩
      · rintro ⟨t, rfl, rfl⟩
        exact ⟨rfl, t, rfl⟩

theorem charsContains_iff : ∀ (hay nd : List Char),
    charsContains hay nd = true ↔ ∃ s t, hay = s ++ nd ++ t := by
  intro hay
  induction hay with
  | nil =>
    intro nd
    cases nd with
    | nil => simp [charsContains]
    | cons d ds => simp [charsContains]
  | cons c cs ih =>
    intro nd
    simp only [charsContains, Bool.or_eq_true, charsStartsWith_iff, ih]
    constructor
    · rintro (⟨t, ht⟩ | ⟨s, t, ht⟩)
      · exact ⟨[], t, by simpa using ht⟩
      · exact ⟨c :: s, t, by simp [ht]⟩
    · rintro ⟨s, t, ht⟩
      cases s with
      | nil =>
        left
        exact ⟨t, by simpa using ht⟩
      | cons s₀ ss =>
        right
        simp only [List.cons_append, List.cons.injEq] at ht
        exact ⟨ss, t, ht.2⟩

/-! ## Claim C4: a top-level expected string is a substring test on the
serialized actual value -/

/-- C4: under `contains` with a string expected value `s`, the match
succeeds iff the marshaled bytes of the actual value contain `s` as a
contiguous substring — for an actual value of any variant, not just
strings. -/
theorem containsStringSubstringSerialized (s : String) (actual : Value) :
    compareMessages MatchTypeContains (Value.str s) actual = true ↔
      ∃ pre post, marshal actual = pre ++ s.data ++ post := by
  have h : compareMessages MatchTypeContains (Value.str s) actual =
      charsContains (marshal actual) s.data := rfl
  rw [h]
  exact charsContains_iff _ _

theorem canonList_length (xs : List Value) : (canonList xs).length = xs.length := by
  induction xs with
  | nil => rfl
  | cons v vs ih => simp [canonList, ih]

/-! ## Claim C6: array containment and lengths -/

/-- Counterexample to C6 as stated: the empty expected array matches an
actual array of different (nonzero) length, because `sliceContains`
returns true whenever the expected slice is empty. -/
theorem arrayLengthCounterexample :
    compareMessages MatchTypeContains (Value.arr []) (Value.arr [Value.null]) = true := by
  decide

/-- C6 amended: under `contains`, a non-empty expected array fails
against any actual array of different length (positional comparison),
while an empty expected array matches every actual array. -/
theorem arrayContainsLength (es as : List Value) :
    (es ≠ [] → as.length ≠ es.length →
      compareMessages MatchTypeContains (Value.arr es) (Value.arr as) = false) ∧
    compareMessages MatchTypeContains (Value.arr []) (Value.arr as) = true := by
  constructor
  · intro hne hlen
    have h : compareMessages MatchTypeContains (Value.arr es) (Value.arr as) =
        sliceContains (canonList as) (canonList es) := rfl
    rw [h]
    unfold sliceContains
    have h1 : (canonList es).isEmpty = false := by
      cases es with
      | nil => exact absurd rfl hne
      | cons v vs => rfl
    have h2 : (canonList as).length ≠ (canonList es).length := by
      rw [canonList_length, canonList_length]
      exact hlen
    simp [h1, h2]
  · rfl

/-- Witness for C6's amended claim at concrete arrays of lengths 1 and 2. -/
theorem arrayContainsLength_witness :
    compareMessages MatchTypeContains (Value.arr [Value.null])
      (Value.arr [Value.null, Value.null]) = false :=
  (arrayContainsLength [Value.null] [Value.null, Value.null]).1
    (List.cons_ne_nil Value.null []) (by decide)

/-! ## Claim C7: expected null under contains -/

/-- Counterexample to C7 as stated: at top level an expected `null`
matches the non-null actual string `"null"`, because the default branch
of `compareMessages` searches the bytes `null` inside the serialized
actual value. -/
theorem nullContainsCounterexample :
    compareMessages MatchTypeContains Value.null (Value.str "null") = true := by
  decide

/-- C7 amended: nested inside an object or array comparison an expected
`null` matches only a `null` actual; but at the top level of a
`contains` comparison an expected `null` matches iff the serialized
actual contains the four bytes `null` as a substring — which holds for
some non-null actual values. -/
theorem nullContainsBehavior :
    (∀ va : Value, elemContains va Value.null = true ↔ va = Value.null) ∧
    (∀ a : Value, compareMessages MatchTypeContains Value.null a = true ↔
      ∃ pre post, marshal a = pre ++ "null".data ++ post) := by
  constructor
  · intro va
    cases va <;> simp [elemContains]
  · intro a
    have h : compareMessages MatchTypeContains Value.null a =
        charsContains (marshal a) (marshal Value.null) := rfl
    have hn : marshal Value.null = "null".data := by decide
    rw [h, hn]
    exact charsContains_iff _ _

/-! ## Claim C2: object containment -/

theorem mapContainsLoop_iff (a : List (String × Value)) : ∀ b : List (String × Value),
    mapContainsLoop a b = true ↔
      ∀ p ∈ b, ∃ w, a.lookup p.1 = some w ∧ elemContains w p.2 = true := by
  intro b
  induction b with
  | nil => simp [mapContainsLoop]
  | cons q qs ih =>
    obtain ⟨k, v⟩ := q
    cases h : a.lookup k with
    | none =>
      simp only [mapContainsLoop, h, Bool.false_and, Bool.and_eq_true]
      constructor
      · intro hfalse
        simp at hfalse
      · intro hall
        obtain ⟨w, hw, _⟩ := hall (k, v) (List.mem_cons_self _ _)
        rw [h] at hw
        exact absurd hw (by simp)
    | some w =>
      simp only [mapContainsLoop, h, Bool.and_eq_true, ih, List.forall_mem_cons]
      constructor
      · rintro ⟨hw, hrest⟩
        exact ⟨⟨w, rfl, hw⟩, hrest⟩
      · rintro ⟨⟨w', hw', he'⟩, hrest⟩
        simp only [Option.some.injEq] at hw'
        exact ⟨by rw [hw']; exact he', hrest⟩

theorem mapContains_iff (a b : List (String × Value)) :
    mapContains a b = true ↔
      ∀ p ∈ b, ∃ w, a.lookup p.1 = some w ∧ elemContains w p.2 = true := by
  unfold mapContains
  cases b with
  | nil => simp
  | cons q qs =>
    simp only [List.isEmpty_cons, Bool.false_eq_true, if_false, ite_false]
    exact mapContainsLoop_iff a (q :: qs)

/-- Counterexample to C2 as stated: the spec's scenario — expected
`{"role":"user","content":"hello"}` against actual
`{"role":"user","content":"hello there","extra":"x"}` — does not match,
because a nested expected string field is compared by exact serialized
bytes, not by substring. -/
theorem objectContainsCounterexample :
    compareMessages MatchTypeContains
      (Value.obj [("role", Value.str "user"), ("content", Value.str "hello")])
      (Value.obj [("role", Value.str "user"), ("content", Value.str "hello there"),
        ("extra", Value.str "x")]) = false := by
  decide

/-- C2 amended: under `contains` with an object expected value the match
succeeds iff every key of the (normalized) expected object is present in
the (normalized) actual object and its value passes the per-element
check — which recurses only into objects and arrays; a nested string
field must be byte-identical, so a longer actual string does not match.
Extra keys in the actual object are ignored, since only the expected
object's keys are looked up. -/
theorem objectContainsPerKey :
    (∀ em am : List (String × Value),
      compareMessages MatchTypeContains (Value.obj em) (Value.obj am) = true ↔
        ∀ p ∈ sortKeys (canonFields em), ∃ w,
          (sortKeys (canonFields am)).lookup p.1 = some w ∧ elemContains w p.2 = true) ∧
    (∀ s₁ s₂ : String, elemContains (Value.str s₁) (Value.str s₂) = true ↔ s₁ = s₂) := by
  constructor
  · intro em am
    have h : compareMessages MatchTypeContains (Value.obj em) (Value.obj am) =
        mapContains (sortKeys (canonFields am)) (sortKeys (canonFields em)) := rfl
    rw [h]
    exact mapContains_iff _ _
  · intro s₁ s₂
    have h : elemContains (Value.str s₁) (Value.str s₂) =
        (marshal (Value.str s₁) == marshal (Value.str s₂)) := rfl
    rw [h, beq_iff_eq]
    constructor
    · intro hb
      have hc := marshalInjCanon hb
      have hc' : Value.str s₁ = Value.str s₂ := hc
      injection hc'
    · rintro rfl
      rfl

/-! ## Claim C5: exact match is structural identity up to object key order -/

theorem canonFields_eq_map (l : List (String × Value)) :
    canonFields l = l.map fun p => (p.1, canon p.2) := by
  induction l with
  | nil => rfl
  | cons p ps ih =>
    cases p
    simp [canonFields, ih]

theorem sortKeys_perm_eq {l₁ l₂ : List (String × Value)} (hp : l₁.Perm l₂)
    (hnd : (l₁.map Prod.fst).Nodup) : sortKeys l₁ = sortKeys l₂ := by
  have hperm : (sortKeys l₁).Perm (sortKeys l₂) :=
    ((List.perm_insertionSort keyLE l₁).trans hp).trans (List.perm_insertionSort keyLE l₂).symm
  have hnd₁ : ((sortKeys l₁).map Prod.fst).Nodup :=
    (((List.perm_insertionSort keyLE l₁).map Prod.fst).symm).nodup hnd
  have hnd₂ : ((sortKeys l₂).map Prod.fst).Nodup := (hperm.map Prod.fst).nodup hnd₁
  have hstrict : ∀ (s : List (String × Value)), List.Sorted keyLE s →
      (s.map Prod.fst).Nodup →
      s.Pairwise fun p q : String × Value => keyLE p q ∧ p.1 ≠ q.1 := by
    intro s hs hn
    have hne : s.Pairwise fun p q : String × Value => p.1 ≠ q.1 := by
      rw [List.Nodup, List.pairwise_map] at hn
      exact hn
    exact hs.and hne
  haveI : IsAntisymm (String × Value) (fun p q : String × Value => keyLE p q ∧ p.1 ≠ q.1) :=
    ⟨fun a b hab hba => (hab.2 (String.ext (charsLE_antisymm hab.1 hba.1))).elim⟩
  exact List.eq_of_perm_of_sorted hperm
    (hstrict _ (List.sorted_insertionSort keyLE l₁) hnd₁)
    (hstrict _ (List.sorted_insertionSort keyLE l₂) hnd₂)

/-- C5: `exact` matching succeeds iff the two value trees are
structurally identical up to object key order: `canon` only reorders
each object's fields into the canonical key order, so `canon e = canon a`
states exactly "same variant at every node, object fields equal as
key-value collections regardless of order, arrays positionally equal,
same string bytes, numbers numerically equal".  The second conjunct
makes the key-order independence explicit: permuting an object's fields
(with distinct keys) never changes the canonical form. -/
theorem exactStructuralIdentity :
    (∀ e a : Value, compareMessages MatchTypeExact e a = true ↔ canon e = canon a) ∧
    (∀ l₁ l₂ : List (String × Value), l₁.Perm l₂ → (l₁.map Prod.fst).Nodup →
      canon (Value.obj l₁) = canon (Value.obj l₂)) := by
  constructor
  · intro e a
    rw [compareMessages_exact, beq_iff_eq]
    constructor
    · exact marshalInjCanon
    · intro hc
      show ser (canon e) = ser (canon a)
      rw [hc]
  · intro l₁ l₂ hp hnd
    show Value.obj (sortKeys (canonFields l₁)) = Value.obj (sortKeys (canonFields l₂))
    have hp' : (canonFields l₁).Perm (canonFields l₂) := by
      rw [canonFields_eq_map, canonFields_eq_map]
      exact hp.map _
    have hnd' : ((canonFields l₁).map Prod.fst).Nodup := by
      rw [canonFields_eq_map]
      simp only [List.map_map]
      have hcomp : (Prod.fst ∘ fun p : String × Value => (p.1, canon p.2)) =
          (Prod.fst : String × Value → String) := by
        funext p
        rfl
      rw [hcomp]
      exact hnd
    rw [sortKeys_perm_eq hp' hnd']

/-- Witness for C5 at a concrete pair of objects with the same two
fields in opposite orders: `exact` matching accepts them and their
canonical forms agree. -/
theorem exactStructuralIdentity_witness :
    compareMessages MatchTypeExact
        (Value.obj [("b", Value.null), ("a", Value.bool true)])
        (Value.obj [("a", Value.bool true), ("b", Value.null)]) = true ∧
      canon (Value.obj [("b", Value.null), ("a", Value.bool true)]) =
        canon (Value.obj [("a", Value.bool true), ("b", Value.null)]) := by
  have h2 := exactStructuralIdentity.2 [("b", Value.null), ("a", Value.bool true)]
    [("a", Value.bool true), ("b", Value.null)]
    (List.Perm.swap ("a", Value.bool true) ("b", Value.null) [])
    (by decide)
  exact ⟨(exactStructuralIdentity.1 _ _).mpr h2, h2⟩

/-! ## Claim C9: what each provider adapter decides -/

/-- Counterexample to C9 as stated: a Google `contains` entry matches a
tail whose part text merely includes the expected text as a substring,
while the shared structural matcher on the same normalized contents
fails — so the Google adapter's decision is not the shared matcher's. -/
theorem googleAdapterCounterexample :
    googleRequestsMatch ⟨MatchTypeContains, ⟨"user", ["hi"]⟩⟩
        ⟨[⟨"user", ["hi there"]⟩]⟩ = true ∧
      compareMessages MatchTypeContains (contentToValue ⟨"user", ["hi"]⟩)
        (contentToValue ⟨"user", ["hi there"]⟩) = false := by
  constructor
  · decide
  · decide

/-- C9 amended: the OpenAI and Anthropic adapters decide exactly by the
shared matcher on the conversation's tail message; the Google adapter
agrees with the shared matcher for `exact` (byte equality of the
marshaled contents) but implements its own `contains` rule: role
equality plus a substring test on the space-joined part texts. -/
theorem adapterDecisions :
    (∀ (em : OpenAIRequestMatch) (messages : List Value) (last : Value),
      messages.getLast? = some last →
      openaiRequestsMatch em messages = compareMessages em.MatchType em.Message last) ∧
    (∀ (em : AnthropicRequestMatch) (messages : List Value) (last : Value),
      messages.getLast? = some last →
      anthropicRequestsMatch em messages = compareMessages em.MatchType em.Message last) ∧
    (∀ (gm : GoogleRequestMatch) (body : GoogleRequestBody) (last : GoogleContent),
      body.Contents.getLast? = some last → gm.MatchType = MatchTypeExact →
      googleRequestsMatch gm body =
        compareMessages MatchTypeExact (contentToValue gm.Content) (contentToValue last)) ∧
    (∀ (gm : GoogleRequestMatch) (body : GoogleRequestBody) (last : GoogleContent),
      body.Contents.getLast? = some last → gm.MatchType = MatchTypeContains →
      googleRequestsMatch gm body =
        ((last.Role == gm.Content.Role) &&
          charsContains (joinParts last.Parts).data (joinParts gm.Content.Parts).data)) := by
  refine ⟨?_, ?_, ?_, ?_⟩
  · exact fun em messages last h => openaiRequestsMatch_last em h
  · exact fun em messages last h => anthropicRequestsMatch_last em h
  · intro gm body last hlast hmt
    unfold googleRequestsMatch
    rw [hlast, hmt]
    simp only [if_pos rfl, ite_true]
    rfl
  · intro gm body last hlast hmt
    have hred : googleRequestsMatch gm body =
        if last.Role ≠ gm.Content.Role then false
        else charsContains (joinParts last.Parts).data (joinParts gm.Content.Parts).data := by
      unfold googleRequestsMatch
      rw [hlast, hmt]
      rfl
    rw [hred]
    by_cases hr : last.Role = gm.Content.Role
    · have hnn : ¬last.Role ≠ gm.Content.Role := fun hh => hh hr
      rw [if_neg hnn, hr]
      simp
    · rw [if_pos hr]
      have hb : (last.Role == gm.Content.Role) = false := by
        simp [hr]
      rw [hb]
      simp

/-- Witness for C9's amended claim at the concrete Google entry of the
counterexample: the adapter's decision is the role-equality-plus-joined-
text-substring rule. -/
theorem adapterDecisions_witness :
    googleRequestsMatch ⟨MatchTypeContains, ⟨"user", ["hi"]⟩⟩ ⟨[⟨"user", ["hi there"]⟩]⟩ =
      ((("user" : String) == "user") &&
        charsContains (joinParts ["hi there"]).data (joinParts ["hi"]).data) :=
  adapterDecisions.2.2.2 ⟨MatchTypeContains, ⟨"user", ["hi"]⟩⟩ ⟨[⟨"user", ["hi there"]⟩]⟩
    ⟨"user", ["hi there"]⟩ rfl rfl

theorem matcherTotalMalformedSkipped_witness :
    openaiFindMatchingMockG
      [⟨"bad", MatchTypeContains, none, Value.null⟩,
        ⟨"good", MatchTypeContains, some (Value.str "hi"), Value.bool true⟩]
      [Value.str "hi there"] =
      openaiFindMatchingMockG
        [⟨"good", MatchTypeContains, some (Value.str "hi"), Value.bool true⟩]
        [Value.str "hi there"] :=
  matcherTotalMalformedSkipped.2.2 []
    [⟨"good", MatchTypeContains, some (Value.str "hi"), Value.bool true⟩]
    ⟨"bad", MatchTypeContains, none, Value.null⟩
    [Value.str "hi there"] rfl

end MockLLM
